import Mathlib

/-!
Verification of the analyser and oscillator kernels.

Shallow embedding of `src/analysis.rs` and `src/node/oscillator.rs` of the
`web-audio-api-rs` repository, together with proofs about the embedded
definitions.

Conventions.
* `RENDER_QUANTUM_SIZE = 128` (constant `K` of the crate).
* A render-quantum channel (`AudioRenderQuantumChannel`) is a block of 128
  `f32` samples.  The analyser's time-domain path only *copies* samples, so
  blocks are embedded polymorphically as `List α`; concrete instances use
  `ℚ` (every `f32` value is a rational, and copying is exact).
* The `u8` ring index is embedded as a `Nat` kept below `256`, with
  `wrapping_add`/`wrapping_sub` written out as arithmetic `% 256`.
* Oscillator / frequency-domain arithmetic (powf, sin, cos, sqrt, log10) is
  embedded over `ℝ` (idealised real arithmetic in place of `f32` rounding);
  purely rational fragments stay in `ℚ`.
-/

namespace WebAudio

/-- `RENDER_QUANTUM_SIZE` of the crate: length of one render quantum. -/
def RENDER_QUANTUM_SIZE : Nat := 128

/-- FFT size is max 32768 samples, mandated in spec (`MAX_SAMPLES`). -/
def MAX_SAMPLES : Nat := 32768

/-- Max FFT size corresponds to 256 render quanta (`MAX_QUANTA`). -/
def MAX_QUANTA : Nat := MAX_SAMPLES / RENDER_QUANTUM_SIZE

/-- A sample block (`AudioRenderQuantumChannel`): 128 samples.
Embedded as a list; well-formed blocks have length 128. -/
abbrev Block (α : Type) : Type := List α

/-- Modelled from the spec: the distinguished all-zero silence block returned
by `AudioRenderQuantumChannel::silence()` (the `render` module is not part of
the sources under verification; the spec fixes the silence block to be
read-only zeros). -/
def silenceBlock (α : Type) [Zero α] : Block α := List.replicate RENDER_QUANTUM_SIZE 0

/-- Ring buffer for time domain analysis (`struct TimeAnalyser`).
`index` and `previous_cycle_index` are `u8` in the source. -/
structure TimeAnalyser (α : Type) where
  buffer : List (Block α)
  index : Nat
  previous_cycle_index : Nat
deriving Repr

namespace TimeAnalyser

/-- `TimeAnalyser::new` -/
def new (α : Type) : TimeAnalyser α :=
  { buffer := [], index := 0, previous_cycle_index := 0 }

/-- `TimeAnalyser::add_data`: push until the ring holds 256 blocks, then
overwrite at the write index; the `u8` write index wraps via
`wrapping_add(1)`, i.e. `(· + 1) % 256`. -/
def add_data (t : TimeAnalyser α) (data : Block α) : TimeAnalyser α :=
  { t with
    buffer :=
      if t.buffer.length < 256 then t.buffer ++ [data]
      else t.buffer.set t.index data
    index := (t.index + 1) % 256 }

/-- `TimeAnalyser::check_complete_cycle`: `processed` is the `u8` wrapping
difference `index - previous_cycle_index`; the cycle is complete when
`processed * RENDER_QUANTUM_SIZE` is divisible by `fft_size`, and a complete
cycle stores the current index. Returns (result, updated state). -/
def check_complete_cycle (t : TimeAnalyser α) (fft_size : Nat) :
    Bool × TimeAnalyser α :=
  let processed := (t.index % 256 + 256 - t.previous_cycle_index % 256) % 256
  let processed_samples := processed * RENDER_QUANTUM_SIZE
  if processed_samples % fft_size == 0 then
    (true, { t with previous_cycle_index := t.index })
  else
    (false, t)

end TimeAnalyser

/-- Fuel-driven worker for `chunksOf` (structural recursion so that the
kernel can evaluate it; `fuel = l.length` always suffices). -/
def chunksOfGo (fuel n : Nat) (l : List α) : List (List α) :=
  match fuel with
  | 0 => []
  | fuel + 1 =>
      if l.isEmpty || n == 0 then []
      else l.take n :: chunksOfGo fuel n (l.drop n)

/-- `slice::chunks_mut(n)`: split a list into consecutive chunks of length
`n`; the final chunk may be shorter.  (Rust panics on `n = 0`; the guard
returns `[]` there, and no use site passes `0`.) -/
def chunksOf (n : Nat) (l : List α) : List (List α) :=
  chunksOfGo l.length n l

theorem chunksOfGo_congr (n : Nat) :
    ∀ (f₁ f₂ : Nat) (l : List α), l.length ≤ f₁ → l.length ≤ f₂ →
      chunksOfGo f₁ n l = chunksOfGo f₂ n l := by
  intro f₁
  induction f₁ with
  | zero =>
      intro f₂ l h1 _
      have : l = [] := List.eq_nil_of_length_eq_zero (Nat.le_zero.mp h1)
      subst this
      cases f₂ <;> rfl
  | succ m ih =>
      intro f₂ l h1 h2
      match l with
      | [] => cases f₂ <;> rfl
      | a :: l' =>
          match f₂ with
          | 0 => simp at h2
          | k + 1 =>
              by_cases hn : n = 0
              · subst hn; simp [chunksOfGo]
              · have hne : ((a :: l').isEmpty || n == 0) = false := by
                  simp [List.isEmpty, hn]
                simp only [chunksOfGo, hne, Bool.false_eq_true, if_false]
                have hd : ((a :: l').drop n).length ≤ m := by
                  simp only [List.length_drop, List.length_cons]
                  simp only [List.length_cons] at h1
                  omega
                have hd' : ((a :: l').drop n).length ≤ k := by
                  simp only [List.length_drop, List.length_cons]
                  simp only [List.length_cons] at h2
                  omega
                rw [ih k _ hd hd']

theorem chunksOfGo_fuel (n fuel : Nat) (l : List α) (h : l.length ≤ fuel) :
    chunksOfGo fuel n l = chunksOf n l :=
  chunksOfGo_congr n fuel l.length l h le_rfl

/-- Unfolding equation for `chunksOf` in the interesting case. -/
theorem chunksOf_cons (n : Nat) (l : List α) (hl : l ≠ []) (hn : n ≠ 0) :
    chunksOf n l = l.take n :: chunksOf n (l.drop n) := by
  match l with
  | a :: l' =>
      have hne : ((a :: l').isEmpty || n == 0) = false := by
        simp [List.isEmpty, hn]
      show chunksOfGo (l'.length + 1) n (a :: l') = _
      simp only [chunksOfGo, hne, Bool.false_eq_true, if_false]
      rw [chunksOfGo_fuel n l'.length _
        (by simp only [List.length_drop, List.length_cons]; omega)]

namespace TimeAnalyser

/-- The ring content as blocks ordered newest first: the source iterates
`buffer[index..]` then `buffer[..index]` (oldest → newest) and reverses. -/
def orderedNewestFirst (t : TimeAnalyser α) : List (Block α) :=
  ((t.buffer.drop t.index) ++ (t.buffer.take t.index)).reverse

/-- `TimeAnalyser::get_float_time`: order the ring newest-first, chain an
infinite repetition of the silence block, split `out[0..min fft_size out.len]`
into 128-chunks, reverse, and copy `d[..b.len()]` over each chunk `b` from the
paired data block `d`; slots past `min fft_size out.len` are untouched. -/
def get_float_time [Zero α] (t : TimeAnalyser α) (out : List α)
    (fft_size : Nat) : List α :=
  let true_size := min fft_size out.length
  let bufChunks := (chunksOf RENDER_QUANTUM_SIZE (out.take true_size)).reverse
  let data := t.orderedNewestFirst
  let copied := bufChunks.mapIdx fun i b =>
    (data.getD i (silenceBlock α)).take b.length
  copied.reverse.flatten ++ out.drop true_size

end TimeAnalyser

/-- Feed a sequence of blocks, oldest first (`add_data` in a loop). -/
def runAdds (ds : List (Block α)) (t : TimeAnalyser α) : TimeAnalyser α :=
  ds.foldl (fun s d => s.add_data d) t

/-- One control-side call on the time analyser: either `add_data` or
`check_complete_cycle`. -/
inductive AnOp (α : Type) where
  | add (d : Block α)
  | check (fft_size : Nat)

/-- Run a sequence of calls, collecting each `check_complete_cycle` result. -/
def runResults (t : TimeAnalyser α) : List (AnOp α) → List Bool
  | [] => []
  | .add d :: ops => runResults (t.add_data d) ops
  | .check f :: ops =>
      let r := t.check_complete_cycle f
      r.1 :: runResults r.2 ops

/-- The claim's reading of `check_complete_cycle`: a ghost counter of blocks
received since the last positive return (or creation); a call returns true
iff that count times `K = 128` is a multiple of `fft_size`, and a positive
return resets the count. -/
def specCheckResults (b : Nat) : List (AnOp α) → List Bool
  | [] => []
  | .add _ :: ops => specCheckResults (b + 1) ops
  | .check f :: ops =>
      let r := (b * RENDER_QUANTUM_SIZE) % f == 0
      r :: specCheckResults (if r then 0 else b) ops

/-- The valid `fft_size` values of the API: powers of two in `[32, 32768]`. -/
def validFftSizes : List Nat :=
  [32, 64, 128, 256, 512, 1024, 2048, 4096, 8192, 16384, 32768]

/-- The sample stream the analyser retains, newest sample first: the last (at
most 256) blocks, each block reversed (a block's last sample is its newest). -/
def capturedNewestFirst (ds : List (Block α)) : List α :=
  ((ds.reverse.take MAX_QUANTA).map List.reverse).flatten

/-- The claim's description of `get_float_time` on an analyser that was fed
the blocks `ds` (oldest first): the first `min fft_size out.len` slots hold
the most recent retained samples, rear-aligned with the newest sample at the
end, zero where fewer samples are retained; later slots are untouched. -/
def specTimeReadout [Zero α] (ds : List (Block α)) (out : List α)
    (fft_size : Nat) : List α :=
  let true_size := min fft_size out.length
  (List.range true_size).map
    (fun p => (capturedNewestFirst ds).getD (true_size - 1 - p) 0)
    ++ out.drop true_size

/-! ## Basic facts about `add_data` -/

theorem add_data_index (t : TimeAnalyser α) (d : Block α) :
    (t.add_data d).index = (t.index + 1) % 256 := rfl

theorem add_data_prev (t : TimeAnalyser α) (d : Block α) :
    (t.add_data d).previous_cycle_index = t.previous_cycle_index := rfl

theorem runAdds_cons (d : Block α) (ds : List (Block α)) (t : TimeAnalyser α) :
    runAdds (d :: ds) t = runAdds ds (t.add_data d) := rfl

theorem runAdds_index (ds : List (Block α)) (t : TimeAnalyser α)
    (h : t.index < 256) :
    (runAdds ds t).index = (t.index + ds.length) % 256 := by
  induction ds generalizing t with
  | nil => simpa [runAdds] using (Nat.mod_eq_of_lt h).symm
  | cons d ds ih =>
      rw [runAdds_cons, ih _ (by simp [add_data_index]; omega)]
      simp only [add_data_index, List.length_cons]
      omega

/-- C3: after 256 `add_data` calls the write index returns to its previous
value, and the 256 indices seen before the wrap are pairwise distinct. -/
theorem claim_C3_ring_index_wrap (t : TimeAnalyser α) (ds : List (Block α))
    (hlen : ds.length = 256) (hidx : t.index < 256) :
    (runAdds ds t).index = t.index ∧
      ((List.range 256).map
        (fun k => (runAdds (ds.take k) t).index)).Nodup := by
  constructor
  · rw [runAdds_index ds t hidx, hlen]
    omega
  · have hval : ∀ k ∈ List.range 256,
        (runAdds (ds.take k) t).index = (t.index + k) % 256 := by
      intro k hk
      rw [runAdds_index _ t hidx, List.length_take, hlen]
      have : min k 256 = k := by
        have := List.mem_range.mp hk
        omega
      rw [this]
    refine List.Nodup.map_on ?_ (List.nodup_range 256)
    intro x hx y hy hf
    rw [hval x hx, hval y hy] at hf
    have hx' := List.mem_range.mp hx
    have hy' := List.mem_range.mp hy
    omega

set_option maxRecDepth 4000 in
/-- A witness for C3 at a concrete state and block sequence. -/
theorem claim_C3_ring_index_wrap_witness :
    (runAdds (List.replicate 256 (silenceBlock ℚ)) (TimeAnalyser.new ℚ)).index
      = (TimeAnalyser.new ℚ).index :=
  (claim_C3_ring_index_wrap (TimeAnalyser.new ℚ)
    (List.replicate 256 (silenceBlock ℚ)) (by simp) (by decide)).1

/-! ## C10: ring-buffer write safety -/

/-- The reachability invariant of the ring buffer. -/
def RingInv (t : TimeAnalyser α) : Prop :=
  t.buffer.length ≤ 256 ∧ t.index < 256 ∧
    (t.buffer.length < 256 → t.index = t.buffer.length)

theorem ringInv_new : RingInv (TimeAnalyser.new α) := by
  refine ⟨by simp [TimeAnalyser.new], by simp [TimeAnalyser.new], ?_⟩
  intro _
  simp [TimeAnalyser.new]

theorem ringInv_add (t : TimeAnalyser α) (d : Block α) (h : RingInv t) :
    RingInv (t.add_data d) := by
  obtain ⟨hlen, hidx, hpush⟩ := h
  by_cases hb : t.buffer.length < 256
  · have hbuf : (t.add_data d).buffer = t.buffer ++ [d] := by
      simp [TimeAnalyser.add_data, hb]
    refine ⟨?_, ?_, ?_⟩ <;> simp [hbuf, add_data_index] <;> omega
  · have hbuf : (t.add_data d).buffer = t.buffer.set t.index d := by
      simp [TimeAnalyser.add_data, hb]
    refine ⟨?_, ?_, ?_⟩ <;> simp [hbuf, add_data_index] <;> omega

theorem ringInv_runAdds (ds : List (Block α)) (t : TimeAnalyser α)
    (h : RingInv t) : RingInv (runAdds ds t) := by
  induction ds generalizing t with
  | nil => exact h
  | cons d ds ih => exact ih _ (ringInv_add t d h)

/-- C10: along every `add_data` sequence from a fresh analyser, the ring
vector never exceeds 256 blocks, the `u8` write index stays below 256, and
whenever the overwrite branch is enabled (length ≥ 256, i.e. exactly 256)
the write index is strictly inside the vector, so `self.buffer[index]`
never indexes out of range; while the vector is still short the push branch
runs (index = length). -/
theorem claim_C10_add_data_in_bounds (ds : List (Block α)) :
    (runAdds ds (TimeAnalyser.new α)).buffer.length ≤ 256 ∧
    (runAdds ds (TimeAnalyser.new α)).index < 256 ∧
    (256 ≤ (runAdds ds (TimeAnalyser.new α)).buffer.length →
      (runAdds ds (TimeAnalyser.new α)).index
        < (runAdds ds (TimeAnalyser.new α)).buffer.length) ∧
    ((runAdds ds (TimeAnalyser.new α)).buffer.length < 256 →
      (runAdds ds (TimeAnalyser.new α)).index
        = (runAdds ds (TimeAnalyser.new α)).buffer.length) := by
  obtain ⟨h1, h2, h3⟩ := ringInv_runAdds ds (TimeAnalyser.new α) ringInv_new
  exact ⟨h1, h2, fun h => by omega, h3⟩

/-! ## C2: `check_complete_cycle` against the block-count specification -/

theorem check_complete_cycle_eq (t : TimeAnalyser α) (f : Nat) :
    t.check_complete_cycle f =
      if ((t.index % 256 + 256 - t.previous_cycle_index % 256) % 256
            * RENDER_QUANTUM_SIZE) % f == 0
      then (true, { t with previous_cycle_index := t.index })
      else (false, t) := rfl

/-- Relation between a ring state and the spec's ghost counter `b` of blocks
received since the last positive cycle check. -/
def CycleRel (t : TimeAnalyser α) (b : Nat) : Prop :=
  t.index < 256 ∧ t.previous_cycle_index < 256 ∧
    (t.index + 256 - t.previous_cycle_index) % 256 = b % 256

theorem validFftSizes_cases {f : Nat} (hf : f ∈ validFftSizes) :
    f = 32 ∨ f = 64 ∨ f = 128 ∨ f = 256 ∨ f = 512 ∨ f = 1024 ∨ f = 2048 ∨
      f = 4096 ∨ f = 8192 ∨ f = 16384 ∨ f = 32768 := by
  simpa [validFftSizes] using hf

theorem mod_mul_quantum_eq {b f : Nat} (hf : f ∈ validFftSizes) :
    (b % 256 * RENDER_QUANTUM_SIZE) % f = (b * RENDER_QUANTUM_SIZE) % f := by
  show (b % 256 * 128) % f = (b * 128) % f
  rcases validFftSizes_cases hf with
    rfl | rfl | rfl | rfl | rfl | rfl | rfl | rfl | rfl | rfl | rfl <;> omega

theorem runResults_eq_spec (ops : List (AnOp α)) :
    ∀ (t : TimeAnalyser α) (b : Nat), CycleRel t b →
      (∀ f, AnOp.check (α := α) f ∈ ops → f ∈ validFftSizes) →
      runResults t ops = specCheckResults b ops := by
  induction ops with
  | nil => intro t b _ _; rfl
  | cons op ops ih =>
      intro t b hrel hv
      obtain ⟨hi, hp, hr⟩ := hrel
      match op with
      | .add d =>
          show runResults (t.add_data d) ops = specCheckResults (b + 1) ops
          refine ih _ (b + 1) ⟨?_, ?_, ?_⟩ fun f hf => hv f (by simp [hf])
          · simp [add_data_index]; omega
          · simpa [add_data_prev] using hp
          · simp only [add_data_index, add_data_prev]
            omega
      | .check f =>
          have hf := hv f (by simp)
          have hcond : (((t.index % 256 + 256 - t.previous_cycle_index % 256)
                % 256 * RENDER_QUANTUM_SIZE) % f == 0)
              = ((b * RENDER_QUANTUM_SIZE) % f == 0) := by
            rw [Nat.mod_eq_of_lt hi, Nat.mod_eq_of_lt hp, hr,
              mod_mul_quantum_eq hf]
          show (t.check_complete_cycle f).1 ::
              runResults (t.check_complete_cycle f).2 ops = _
          cases hc : ((b * RENDER_QUANTUM_SIZE) % f == 0) with
          | true =>
              have h1 : t.check_complete_cycle f
                  = (true, { t with previous_cycle_index := t.index }) := by
                rw [check_complete_cycle_eq, hcond, hc]
                exact if_pos rfl
              have h2 : specCheckResults b (AnOp.check (α := α) f :: ops)
                  = true :: specCheckResults 0 ops := by
                show ((b * RENDER_QUANTUM_SIZE) % f == 0) ::
                    specCheckResults
                      (if (b * RENDER_QUANTUM_SIZE) % f == 0 then 0 else b)
                      ops = _
                rw [hc]
                simp
              rw [h1, h2]
              exact congrArg _ (ih _ 0
                ⟨hi, hi, by show (t.index + 256 - t.index) % 256 = 0 % 256; omega⟩
                fun g hg => hv g (by simp [hg]))
          | false =>
              have h1 : t.check_complete_cycle f = (false, t) := by
                rw [check_complete_cycle_eq, hcond, hc]
                simp
              have h2 : specCheckResults b (AnOp.check (α := α) f :: ops)
                  = false :: specCheckResults b ops := by
                show ((b * RENDER_QUANTUM_SIZE) % f == 0) ::
                    specCheckResults
                      (if (b * RENDER_QUANTUM_SIZE) % f == 0 then 0 else b)
                      ops = _
                rw [hc]
                simp
              rw [h1, h2]
              exact congrArg _ (ih _ b ⟨hi, hp, hr⟩
                fun g hg => hv g (by simp [hg]))

/-- C2: for every interleaving of `add_data` and `check_complete_cycle`
calls from a fresh analyser, with `fft_size` arguments drawn from the valid
API values (powers of two in [32, 32768]), `check_complete_cycle fft_size`
returns true exactly when the number of blocks received since the previous
positive return (or since creation) times `K = 128` is a multiple of
`fft_size`, a positive return resetting that count. -/
theorem claim_C2_check_complete_cycle (ops : List (AnOp α))
    (hv : ∀ f, AnOp.check (α := α) f ∈ ops → f ∈ validFftSizes) :
    runResults (TimeAnalyser.new α) ops = specCheckResults 0 ops :=
  runResults_eq_spec ops (TimeAnalyser.new α) 0
    ⟨by simp [TimeAnalyser.new], by simp [TimeAnalyser.new],
      by simp [TimeAnalyser.new]⟩ hv

/-- The claim's concrete scenario, used as the witness for C2:
add/check(32) → true, add/check(128) → true, add/check(256) → false,
add/check(256) → true, add/check(256) → false. -/
theorem claim_C2_check_complete_cycle_witness :
    runResults (TimeAnalyser.new ℚ)
      [.add (silenceBlock ℚ), .check 32, .add (silenceBlock ℚ), .check 128,
       .add (silenceBlock ℚ), .check 256, .add (silenceBlock ℚ), .check 256,
       .add (silenceBlock ℚ), .check 256]
      = [true, true, false, true, false] :=
  (claim_C2_check_complete_cycle _
    (by
      intro f hf
      simp only [List.mem_cons, List.not_mem_nil, or_false] at hf
      rcases hf with h | h | h | h | h <;> simp_all [validFftSizes])).trans
    (by decide)

/-! ## List helper lemmas -/

theorem getD_append_left (l₁ l₂ : List α) (d : α) :
    ∀ (n : Nat), n < l₁.length → (l₁ ++ l₂).getD n d = l₁.getD n d := by
  induction l₁ with
  | nil => intro n h; simp at h
  | cons a l ih =>
      intro n h
      match n with
      | 0 => rfl
      | n + 1 =>
          simp only [List.cons_append, List.getD_cons_succ]
          exact ih n (by simpa using h)

theorem getD_append_right (l₁ l₂ : List α) (d : α) (n : Nat) :
    (l₁ ++ l₂).getD (l₁.length + n) d = l₂.getD n d := by
  induction l₁ with
  | nil => simp
  | cons a l ih =>
      simpa only [List.cons_append, List.length_cons, Nat.add_right_comm,
        List.getD_cons_succ] using ih

theorem getD_eq_default_of_le (l : List α) (d : α) :
    ∀ (n : Nat), l.length ≤ n → l.getD n d = d := by
  induction l with
  | nil => intro n _; rfl
  | cons a l ih =>
      intro n h
      match n with
      | 0 => simp at h
      | n + 1 => exact ih n (by simpa using h)

theorem getD_eq_getElem (l : List α) (d : α) {n : Nat} (h : n < l.length) :
    l.getD n d = l[n] := by
  simp [List.getD_eq_getElem?_getD, List.getElem?_eq_getElem h]

theorem getD_reverse (l : List α) (d : α) {n : Nat} (h : n < l.length) :
    l.reverse.getD n d = l.getD (l.length - 1 - n) d := by
  rw [getD_eq_getElem _ _ (by simpa using h),
    getD_eq_getElem _ _ (by omega), List.getElem_reverse]

theorem getD_take_of_lt (l : List α) (d : α) (m : Nat) :
    ∀ (n : Nat), n < m → (l.take m).getD n d = l.getD n d := by
  induction l generalizing m with
  | nil => intro n _; simp
  | cons a l ih =>
      intro n h
      match m, n with
      | m + 1, 0 => rfl
      | m + 1, n + 1 =>
          simp only [List.take_succ_cons, List.getD_cons_succ]
          exact ih m n (by omega)

/-- `getD` into the flattening of uniform-length lists: index `L*k + q`
reads entry `q` of the `k`-th list (the default beyond the end). -/
theorem getD_flatten_uniform (L : Nat) (z : α) :
    ∀ (ls : List (List α)), (∀ l ∈ ls, l.length = L) →
      ∀ (k q : Nat), q < L →
        ls.flatten.getD (L * k + q) z
          = (ls.getD k (List.replicate L z)).getD q z := by
  intro ls
  induction ls with
  | nil =>
      intro _ k q _
      simp
  | cons l ls ih =>
      intro h k q hq
      have hl : l.length = L := h l (by simp)
      match k with
      | 0 =>
          simp only [Nat.mul_zero, Nat.zero_add, List.flatten_cons,
            List.getD_cons_zero]
          exact getD_append_left _ _ _ q (by omega)
      | k + 1 =>
          have harith : L * (k + 1) + q = l.length + (L * k + q) := by
            rw [hl]; ring
          simp only [List.flatten_cons, List.getD_cons_succ, harith,
            getD_append_right]
          exact ih (fun x hx => h x (by simp [hx])) k q hq

/-! ## C1: `get_float_time` -/

/-- The kernel of the time-domain readout: `n` chunks of `K` samples, the
chunk farthest from the end coming from the oldest needed block (`getD` falls
back to the silence block where the ring holds fewer blocks), the final chunk
from the newest block. -/
def blocksReadout [Zero α] (bs : List (Block α)) : Nat → List α
  | 0 => []
  | n + 1 =>
      ((bs.getD n (silenceBlock α)).take RENDER_QUANTUM_SIZE)
        ++ blocksReadout bs n

theorem orderedNewestFirst_add_push (t : TimeAnalyser α) (d : Block α)
    (hlen : t.buffer.length < 256) (hidx : t.index = t.buffer.length) :
    (t.add_data d).orderedNewestFirst = d :: t.orderedNewestFirst := by
  have hbuf : (t.add_data d).buffer = t.buffer ++ [d] := by
    simp [TimeAnalyser.add_data, hlen]
  have hord : t.orderedNewestFirst = t.buffer.reverse := by
    unfold TimeAnalyser.orderedNewestFirst
    rw [hidx, List.drop_length, List.take_length, List.nil_append]
  have hL : (t.add_data d).orderedNewestFirst
      = (((t.buffer ++ [d]).drop ((t.add_data d).index))
          ++ ((t.buffer ++ [d]).take ((t.add_data d).index))).reverse := by
    unfold TimeAnalyser.orderedNewestFirst
    rw [hbuf]
  rw [hL, hord]
  by_cases hfull : t.buffer.length + 1 < 256
  · have hidx' : (t.add_data d).index = t.buffer.length + 1 := by
      rw [add_data_index, hidx, Nat.mod_eq_of_lt hfull]
    rw [hidx', List.drop_eq_nil_of_le (by simp),
      List.take_of_length_le (by simp), List.nil_append,
      List.reverse_append]
    rfl
  · have hidx' : (t.add_data d).index = 0 := by
      rw [add_data_index, hidx, show t.buffer.length + 1 = 256 by omega]
    rw [hidx', List.drop_zero, List.take_zero, List.append_nil,
      List.reverse_append]
    rfl

theorem orderedNewestFirst_add_full (t : TimeAnalyser α) (d : Block α)
    (hlen : t.buffer.length = 256) (hidx : t.index < 256) :
    (t.add_data d).orderedNewestFirst
      = d :: t.orderedNewestFirst.dropLast := by
  have hbuf : (t.add_data d).buffer = t.buffer.set t.index d := by
    simp [TimeAnalyser.add_data, hlen]
  have hset : t.buffer.set t.index d
      = (t.buffer.take t.index ++ [d]) ++ t.buffer.drop (t.index + 1) := by
    rw [List.set_eq_take_cons_drop d (by omega)]
    simp
  have hdropi : t.buffer.drop t.index
      = t.buffer.get ⟨t.index, by omega⟩ :: t.buffer.drop (t.index + 1) :=
    List.drop_eq_getElem_cons (by omega)
  have hordDrop : t.orderedNewestFirst.dropLast
      = (t.buffer.take t.index).reverse
          ++ (t.buffer.drop (t.index + 1)).reverse := by
    have hord : t.orderedNewestFirst
        = ((t.buffer.take t.index).reverse
            ++ (t.buffer.drop (t.index + 1)).reverse)
            ++ [t.buffer.get ⟨t.index, by omega⟩] := by
      unfold TimeAnalyser.orderedNewestFirst
      rw [List.reverse_append, hdropi]
      simp
    rw [hord, List.dropLast_concat]
  have hL : (t.add_data d).orderedNewestFirst
      = (((t.buffer.set t.index d).drop ((t.add_data d).index))
          ++ ((t.buffer.set t.index d).take ((t.add_data d).index))).reverse := by
    unfold TimeAnalyser.orderedNewestFirst
    rw [hbuf]
  have hlen' : (t.buffer.take t.index ++ [d]).length = t.index + 1 := by
    simp only [List.length_append, List.length_take, List.length_cons,
      List.length_nil]
    omega
  rw [hL, hordDrop]
  by_cases hwrap : t.index + 1 < 256
  · have hidx' : (t.add_data d).index = t.index + 1 := by
      rw [add_data_index, Nat.mod_eq_of_lt hwrap]
    rw [hidx', hset, ← hlen', List.drop_left, List.take_left,
      List.reverse_append, List.reverse_append]
    simp
  · have h255 : t.index = 255 := by omega
    have hidx' : (t.add_data d).index = 0 := by
      rw [add_data_index, h255]
    have hdropNil : t.buffer.drop (t.index + 1) = [] :=
      List.drop_eq_nil_of_le (by omega)
    rw [hidx', hset, List.drop_zero, List.take_zero, List.append_nil,
      hdropNil, List.append_nil, List.reverse_append]
    simp

/-- Full characterization of the ring state after feeding the blocks `ds`
(oldest first) into a fresh analyser: the write index counts blocks mod 256,
the vector holds `min ds.length 256` blocks, and the newest-first ring
content is the last 256 blocks of `ds`, newest first. -/
theorem runAdds_state (ds : List (Block α)) :
    (runAdds ds (TimeAnalyser.new α)).index = ds.length % 256 ∧
    (runAdds ds (TimeAnalyser.new α)).buffer.length = min ds.length 256 ∧
    (runAdds ds (TimeAnalyser.new α)).orderedNewestFirst
      = ds.reverse.take 256 := by
  induction ds using List.reverseRecOn with
  | nil =>
      refine ⟨rfl, rfl, ?_⟩
      rfl
  | append_singleton l d ih =>
      obtain ⟨hidx, hlen, hord⟩ := ih
      have hrun : runAdds (l ++ [d]) (TimeAnalyser.new α)
          = (runAdds l (TimeAnalyser.new α)).add_data d := by
        unfold runAdds
        rw [List.foldl_append]
        rfl
      have hrev : (l ++ [d]).reverse = d :: l.reverse := by simp
      by_cases hcase : l.length < 256
      · have hidx' : (runAdds l (TimeAnalyser.new α)).index
            = (runAdds l (TimeAnalyser.new α)).buffer.length := by
          rw [hidx, hlen, Nat.mod_eq_of_lt hcase]
          omega
        refine ⟨?_, ?_, ?_⟩
        · rw [hrun, add_data_index, hidx]
          simp only [List.length_append, List.length_cons, List.length_nil]
          omega
        · rw [hrun]
          have : (runAdds l (TimeAnalyser.new α)).buffer.length < 256 := by
            omega
          simp only [TimeAnalyser.add_data, this, if_pos]
          simp only [List.length_append, List.length_cons, List.length_nil,
            hlen]
          omega
        · rw [hrun, orderedNewestFirst_add_push _ _ (by omega) hidx', hord,
            hrev]
          have h1 : l.reverse.take 256 = l.reverse := by
            apply List.take_of_length_le
            simp
            omega
          have h2 : l.reverse.take 255 = l.reverse := by
            apply List.take_of_length_le
            simp
            omega
          rw [h1, List.take_succ_cons, h2]
      · have hfull : (runAdds l (TimeAnalyser.new α)).buffer.length = 256 := by
          omega
        refine ⟨?_, ?_, ?_⟩
        · rw [hrun, add_data_index, hidx]
          simp only [List.length_append, List.length_cons, List.length_nil]
          omega
        · rw [hrun]
          simp only [TimeAnalyser.add_data]
          rw [if_neg
            (by omega : ¬ (runAdds l (TimeAnalyser.new α)).buffer.length < 256)]
          simp only [List.length_set, hfull, List.length_append,
            List.length_cons, List.length_nil]
          omega
        · rw [hrun, orderedNewestFirst_add_full _ _ hfull
            (by rw [hidx]; omega), hord, hrev, List.take_succ_cons]
          congr 1
          rw [List.dropLast_eq_take, List.length_take, List.take_take]
          congr 1
          simp only [List.length_reverse]
          omega

/-- The number of chunks of an exact multiple. -/
theorem chunksOf_length (n : Nat) (hn : n ≠ 0) :
    ∀ (k : Nat) (l : List α), l.length = n * k →
      (chunksOf n l).length = k := by
  intro k
  induction k with
  | zero =>
      intro l hl
      have : l = [] := by
        apply List.eq_nil_of_length_eq_zero
        omega
      subst this
      rfl
  | succ m ih =>
      intro l hl
      have hne : l ≠ [] := by
        intro h
        subst h
        simp at hl
        omega
      rw [chunksOf_cons n l hne hn]
      simp only [List.length_cons]
      rw [ih (l.drop n) (by simp [hl]; ring_nf; omega)]

/-- Code-side evaluation: on a prefix of length `K * n`, the chunked
copy produces exactly `blocksReadout bs n`. -/
theorem code_chunks_eq_blocksReadout [Zero α] (bs : List (Block α)) :
    ∀ (n : Nat) (pre : List α), pre.length = RENDER_QUANTUM_SIZE * n →
      (((chunksOf RENDER_QUANTUM_SIZE pre).reverse.mapIdx fun i b =>
          (bs.getD i (silenceBlock α)).take b.length).reverse.flatten)
        = blocksReadout bs n := by
  intro n
  induction n with
  | zero =>
      intro pre hpre
      have : pre = [] := by
        apply List.eq_nil_of_length_eq_zero
        omega
      subst this
      rfl
  | succ m ih =>
      intro pre hpre
      have hK : (128 : Nat) = RENDER_QUANTUM_SIZE := rfl
      have hne : pre ≠ [] := by
        intro h
        subst h
        simp only [List.length_nil, RENDER_QUANTUM_SIZE] at hpre
        omega
      rw [chunksOf_cons _ _ hne (by decide)]
      have hdroplen : (pre.drop RENDER_QUANTUM_SIZE).length
          = RENDER_QUANTUM_SIZE * m := by
        simp only [List.length_drop, hpre]
        ring_nf
        omega
      have hchunks : (chunksOf RENDER_QUANTUM_SIZE
          (pre.drop RENDER_QUANTUM_SIZE)).length = m :=
        chunksOf_length _ (by decide) m _ hdroplen
      simp only [List.reverse_cons]
      rw [List.mapIdx_append_one]
      simp only [List.length_reverse, hchunks]
      rw [List.reverse_append]
      simp only [List.reverse_cons, List.reverse_nil, List.nil_append,
        List.flatten_cons]
      have htake : (pre.take RENDER_QUANTUM_SIZE).length
          = RENDER_QUANTUM_SIZE := by
        simp only [List.length_take, hpre]
        have : RENDER_QUANTUM_SIZE * (m + 1) = RENDER_QUANTUM_SIZE
            + RENDER_QUANTUM_SIZE * m := by ring
        omega
      rw [htake]
      simp only [List.flatten_append, List.flatten_cons, List.flatten_nil,
        List.append_nil]
      rw [ih (pre.drop RENDER_QUANTUM_SIZE) hdroplen]
      rfl

theorem getD_replicate_self (L q : Nat) (z : α) :
    (List.replicate L z).getD q z = z := by
  by_cases h : q < L
  · rw [getD_eq_getElem _ _ (by simpa using h)]
    simp
  · exact getD_eq_default_of_le _ _ _ (by simpa using Nat.le_of_not_lt h)

theorem getD_block_length [Zero α] (bs : List (Block α))
    (hb : ∀ b ∈ bs, b.length = RENDER_QUANTUM_SIZE) (n : Nat) :
    (bs.getD n (silenceBlock α)).length = RENDER_QUANTUM_SIZE := by
  by_cases h : n < bs.length
  · rw [getD_eq_getElem _ _ h]
    exact hb _ (bs.getElem_mem h)
  · rw [getD_eq_default_of_le _ _ _ (Nat.le_of_not_lt h)]
    simp [silenceBlock]

/-- Spec-side evaluation: reading the newest-first sample stream rear-aligned
over `K * n` slots produces exactly `blocksReadout bs n`. -/
theorem spec_range_eq_blocksReadout [Zero α] (bs : List (Block α))
    (hb : ∀ b ∈ bs, b.length = RENDER_QUANTUM_SIZE) :
    ∀ (n : Nat),
      (List.range (RENDER_QUANTUM_SIZE * n)).map
        (fun p => ((bs.map List.reverse).flatten).getD
          (RENDER_QUANTUM_SIZE * n - 1 - p) 0)
      = blocksReadout bs n := by
  intro n
  induction n with
  | zero => rfl
  | succ m ih =>
      have hsplit : RENDER_QUANTUM_SIZE * (m + 1)
          = RENDER_QUANTUM_SIZE + RENDER_QUANTUM_SIZE * m := by ring
      rw [hsplit, List.range_add, List.map_append, List.map_map]
      have hrev : ∀ b ∈ bs.map List.reverse,
          b.length = RENDER_QUANTUM_SIZE := by
        intro b hbmem
        obtain ⟨x, hx, rfl⟩ := List.mem_map.mp hbmem
        simpa using hb x hx
      have hpart2 :
          (List.range (RENDER_QUANTUM_SIZE * m)).map
            ((fun p => ((bs.map List.reverse).flatten).getD
              (RENDER_QUANTUM_SIZE + RENDER_QUANTUM_SIZE * m - 1 - p) 0)
              ∘ (RENDER_QUANTUM_SIZE + ·))
          = blocksReadout bs m := by
        rw [← ih]
        apply List.map_congr_left
        intro p _
        simp only [Function.comp_apply]
        congr 1
        show RENDER_QUANTUM_SIZE + RENDER_QUANTUM_SIZE * m - 1
            - (RENDER_QUANTUM_SIZE + p) = RENDER_QUANTUM_SIZE * m - 1 - p
        omega
      have hpart1 :
          (List.range RENDER_QUANTUM_SIZE).map
            (fun p => ((bs.map List.reverse).flatten).getD
              (RENDER_QUANTUM_SIZE + RENDER_QUANTUM_SIZE * m - 1 - p) 0)
          = (bs.getD m (silenceBlock α)).take RENDER_QUANTUM_SIZE := by
        apply List.ext_getElem
        · simp only [List.length_map, List.length_range, List.length_take,
            getD_block_length bs hb m]
          omega
        · intro i h1 h2
          simp only [List.getElem_map, List.getElem_range,
            List.getElem_take]
          simp only [List.length_map, List.length_range] at h1
          have harith : RENDER_QUANTUM_SIZE + RENDER_QUANTUM_SIZE * m - 1 - i
              = RENDER_QUANTUM_SIZE * m + (RENDER_QUANTUM_SIZE - 1 - i) := by
            show RENDER_QUANTUM_SIZE + RENDER_QUANTUM_SIZE * m - 1 - i
              = RENDER_QUANTUM_SIZE * m + (RENDER_QUANTUM_SIZE - 1 - i)
            have : i < RENDER_QUANTUM_SIZE := h1
            revert this
            show i < 128 → 128 + 128 * m - 1 - i = 128 * m + (128 - 1 - i)
            omega
          rw [harith,
            getD_flatten_uniform RENDER_QUANTUM_SIZE 0 (bs.map List.reverse)
              hrev m (RENDER_QUANTUM_SIZE - 1 - i)
              (by show 128 - 1 - i < 128; omega)]
          by_cases hm : m < bs.length
          · have h1' : (bs.map List.reverse).getD m (List.replicate
                RENDER_QUANTUM_SIZE 0) = bs[m].reverse := by
              rw [getD_eq_getElem _ _ (by simpa using hm)]
              simp
            rw [h1']
            have hlen : bs[m].length = RENDER_QUANTUM_SIZE :=
              hb _ (bs.getElem_mem hm)
            rw [getD_reverse _ _ (by rw [hlen]; show 128 - 1 - i < 128; omega)]
            have harith2 : bs[m].length - 1
                - (RENDER_QUANTUM_SIZE - 1 - i) = i := by
              rw [hlen]
              show 128 - 1 - (128 - 1 - i) = i
              have : i < 128 := h1
              omega
            rw [harith2, getD_eq_getElem _ _ (by rw [hlen]; exact h1)]
            congr 1
            rw [getD_eq_getElem _ _ hm]
          · have hm' : bs.length ≤ m := Nat.le_of_not_lt hm
            have houter : (bs.map List.reverse).getD m
                (List.replicate RENDER_QUANTUM_SIZE 0)
                = List.replicate RENDER_QUANTUM_SIZE 0 :=
              getD_eq_default_of_le _ _ _ (by simpa using hm')
            rw [houter, getD_replicate_self]
            have hblock : bs.getD m (silenceBlock α) = silenceBlock α :=
              getD_eq_default_of_le _ _ _ hm'
            have hilen : i < (bs.getD m (silenceBlock α)).length := by
              rw [getD_block_length bs hb m]
              exact h1
            rw [← getD_eq_getElem (bs.getD m (silenceBlock α)) (0 : α) hilen,
              hblock]
            exact (getD_replicate_self RENDER_QUANTUM_SIZE i (0 : α)).symm
      rw [hpart1, hpart2]
      rfl

/-- C1 (amended): for every analyser fed at least one block, whenever
`min fft_size out.len` is a whole number of render quanta, `get_float_time`
fills `out[0 .. min fft_size out.len)` with the most recent retained samples,
rear-aligned (newest sample last), zero-padded at the front where fewer
samples are retained, and leaves the remaining entries of `out` unchanged. -/
theorem claim_C1_get_float_time (ds : List (Block α)) [Zero α]
    (out : List α) (fft_size : Nat) (_hds : ds ≠ [])
    (hblocks : ∀ b ∈ ds, b.length = RENDER_QUANTUM_SIZE)
    (hmul : RENDER_QUANTUM_SIZE ∣ min fft_size out.length) :
    (runAdds ds (TimeAnalyser.new α)).get_float_time out fft_size
      = specTimeReadout ds out fft_size := by
  obtain ⟨n, hn⟩ := hmul
  have hord := (runAdds_state ds).2.2
  have hb' : ∀ b ∈ ds.reverse.take 256, b.length = RENDER_QUANTUM_SIZE :=
    fun b hbmem => hblocks b (by
      have := List.mem_of_mem_take hbmem
      exact List.mem_reverse.mp this)
  show (((chunksOf RENDER_QUANTUM_SIZE
        (out.take (min fft_size out.length))).reverse.mapIdx fun i b =>
          ((runAdds ds (TimeAnalyser.new α)).orderedNewestFirst.getD i
            (silenceBlock α)).take b.length).reverse.flatten)
      ++ out.drop (min fft_size out.length)
    = (List.range (min fft_size out.length)).map
        (fun p => (capturedNewestFirst ds).getD
          (min fft_size out.length - 1 - p) 0)
      ++ out.drop (min fft_size out.length)
  congr 1
  rw [hord]
  have hcap : capturedNewestFirst ds
      = ((ds.reverse.take 256).map List.reverse).flatten := rfl
  rw [hcap, hn]
  rw [code_chunks_eq_blocksReadout (ds.reverse.take 256) n
    (out.take (RENDER_QUANTUM_SIZE * n))
    (by rw [List.length_take]; omega)]
  exact (spec_range_eq_blocksReadout (ds.reverse.take 256) hb' n).symm

set_option maxRecDepth 8000 in
/-- C1, counterexample to the claim as stated: feed one block whose samples
are 0,1,…,127 and read with `fft_size = 32` into a 32-slot buffer.  The claim
("the most recent `min(fft_size, out.len())` samples, newest at the end")
demands samples 96…127; the code copies the *first* 32 samples of the newest
block (0…31), because a partial chunk copies `d[..b.len()]`. -/
theorem claim_C1_counterexample :
    ((TimeAnalyser.new ℚ).add_data
        ((List.range 128).map (fun i => (i : ℚ)))).get_float_time
        (List.replicate 32 (-1)) 32
      ≠ specTimeReadout [(List.range 128).map (fun i => (i : ℚ))]
        (List.replicate 32 (-1)) 32 := by decide

set_option maxRecDepth 10000 in
/-- Witness for C1 at the claim's concrete scenario: 258 constant blocks
0,…,257; reading `4*K` samples into a 5-block buffer filled with −1 yields
the four newest blocks 254, 255, 256, 257 in order and leaves the last 128
slots at −1. -/
theorem claim_C1_get_float_time_witness :
    (runAdds ((List.range 258).map fun i => List.replicate 128 (i : ℚ))
        (TimeAnalyser.new ℚ)).get_float_time
        (List.replicate 640 (-1)) 512
      = List.replicate 128 (254 : ℚ) ++ List.replicate 128 255
          ++ List.replicate 128 256 ++ List.replicate 128 257
          ++ List.replicate 128 (-1) :=
  (claim_C1_get_float_time _ _ _
    (by simp; exact ⟨0, by omega⟩)
    (by
      intro b hb
      obtain ⟨i, -, rfl⟩ := List.mem_map.mp hb
      simp [RENDER_QUANTUM_SIZE])
    (by rw [List.length_replicate]; decide)).trans (by decide)

/-! ## Oscillator kernel: rational fragments (`src/node/oscillator.rs`) -/

/-- `TABLE_LENGTH_USIZE`: length of the precomputed sine wavetable. -/
def TABLE_LENGTH : Nat := 2048

/-- `struct PeriodicWave` (the setup struct holding Fourier coefficients;
`f32` coefficients embedded as rationals). -/
structure PeriodicWave where
  real : List ℚ
  imag : List ℚ
  disable_normalization : Bool
deriving Repr, DecidableEq

/-- The `range_error` kind of §7 of the spec: a `RangeError:`-prefixed
`assert!` panic in the source. -/
inductive WaError where
  | range_error (msg : String)
deriving Repr, DecidableEq

/-- `PeriodicWave::new`: with explicit options the source asserts
`real.len() >= 2`, `imag.len() >= 2` and `real.len() == imag.len()` in that
order, panicking with a `RangeError` message otherwise; without options it
builds the default wave. Fallible code is embedded as `Except`. -/
def PeriodicWave.new (options : Option (List ℚ × List ℚ × Bool)) :
    Except WaError PeriodicWave :=
  match options with
  | some (real, imag, disable_normalization) =>
      if ¬ (2 ≤ real.length) then
        .error (.range_error
          ("RangeError: Real field length should be at least 2"))
      else if ¬ (2 ≤ imag.length) then
        .error (.range_error
          ("RangeError: Imag field length should be at least 2"))
      else if ¬ (real.length = imag.length) then
        .error (.range_error
          ("RangeError: Imag and real field length should be equal"))
      else .ok ⟨real, imag, disable_normalization⟩
  | none => .ok ⟨[0, 0], [0, 1], false⟩

/-- `f32::round` (round half away from zero), on rationals. -/
def rustRound (x : ℚ) : ℤ :=
  if 0 ≤ x then ⌊x + 1/2⌋ else -⌊-x + 1/2⌋

/-- `f32::abs`, on rationals. -/
def rustAbs (x : ℚ) : ℚ :=
  if x < 0 then -x else x

/-- `incr_phases` as computed by both `OscRendererInner::new` (lines
485–489) and `set_periodic_wave` (lines 577–581):
`TABLE_LENGTH_F32 * idx as f32 * (computed_freq / sample_rate)` for each
coefficient index `idx` below the coefficient count `n`. -/
def incrPhases (computed_freq sample_rate : ℚ) (n : Nat) : List ℚ :=
  (List.range n).map fun idx =>
    (TABLE_LENGTH : ℚ) * idx * (computed_freq / sample_rate)

/-- `interpol_ratios` as pushed by `OscRendererInner::new` (lines 491–494):
`incr_phase - incr_phase.floor()`. -/
def newInterpolRatios (computed_freq sample_rate : ℚ) (n : Nat) : List ℚ :=
  (incrPhases computed_freq sample_rate n).map fun incr_phase =>
    incr_phase - (⌊incr_phase⌋ : ℚ)

/-- `interpol_ratios` as pushed by `set_periodic_wave` (lines 583–588):
`(incr_phase - incr_phase.round()).abs()`. -/
def setPeriodicWaveInterpolRatios (computed_freq sample_rate : ℚ)
    (n : Nat) : List ℚ :=
  (incrPhases computed_freq sample_rate n).map fun incr_phase =>
    rustAbs (incr_phase - (rustRound incr_phase : ℚ))

/-- The sine-path state built by `OscRendererInner::new` (lines 449–450):
`incr_phase = computed_freq / sample_rate`, and the stored
`SineState::interpol_ratio = (incr_phase - incr_phase.floor()) *
TABLE_LENGTH_F32`; `generate_sine` interpolates every sample with this stored
ratio and never recomputes it from the running phase. -/
def sineInterpolRatioAtNew (computed_freq sample_rate : ℚ) : ℚ :=
  let incr_phase := computed_freq / sample_rate
  (incr_phase - (⌊incr_phase⌋ : ℚ)) * (TABLE_LENGTH : ℚ)

/-- C8: `PeriodicWave::new` with explicit options succeeds exactly when both
coefficient arrays have length at least 2 and equal length; the three
concrete invalid shapes of the claim fail with the source's `RangeError`
messages. -/
theorem claim_C8_periodic_wave_validation :
    (∀ (real imag : List ℚ) (dn : Bool),
      (∃ pw, PeriodicWave.new (some (real, imag, dn)) = .ok pw)
        ↔ 2 ≤ real.length ∧ 2 ≤ imag.length ∧ real.length = imag.length) ∧
    PeriodicWave.new (some ([0], [0, 0, 0], false))
      = .error (.range_error
          ("RangeError: Real field length should be at least 2")) ∧
    PeriodicWave.new (some ([0, 0, 0], [0], false))
      = .error (.range_error
          ("RangeError: Imag field length should be at least 2")) ∧
    PeriodicWave.new (some ([0, 0, 0], [0, 0], false))
      = .error (.range_error
          ("RangeError: Imag and real field length should be equal")) := by
  refine ⟨?_, rfl, rfl, rfl⟩
  intro real imag dn
  constructor
  · rintro ⟨pw, hpw⟩
    simp only [PeriodicWave.new] at hpw
    split_ifs at hpw with h1 h2 h3
    exact ⟨by omega, by omega, by omega⟩
  · rintro ⟨h1, h2, h3⟩
    refine ⟨⟨real, imag, dn⟩, ?_⟩
    simp [PeriodicWave.new, h1, h2, h3]

/-- C9: `set_periodic_wave` stores `|incr − round(incr)|`, not the
fractional part `incr − floor(incr)` used at construction; at
`computed_freq = 7`, `sample_rate = 8192` (harmonic 1 increment 7/4) the two
disagree: 1/4 versus the mandated 3/4. -/
theorem claim_C9_interpol_ratios_bug :
    setPeriodicWaveInterpolRatios 7 8192 2 = [0, 1/4] ∧
    newInterpolRatios 7 8192 2 = [0, 3/4] ∧
    setPeriodicWaveInterpolRatios 7 8192 2
      ≠ newInterpolRatios 7 8192 2 := by
  have h0 : incrPhases 7 8192 2 = [0, 7/4] := by
    norm_num [incrPhases, TABLE_LENGTH, List.range_succ]
  have hr0 : rustRound (0 : ℚ) = 0 := by
    rw [rustRound, if_pos (le_refl (0 : ℚ))]
    norm_num [Int.floor_eq_iff]
  have hr1 : rustRound (7/4 : ℚ) = 2 := by
    rw [rustRound, if_pos (by norm_num : (0:ℚ) ≤ 7/4)]
    norm_num [Int.floor_eq_iff]
  have hf0 : (⌊(0 : ℚ)⌋ : ℤ) = 0 := by norm_num
  have hf1 : (⌊(7/4 : ℚ)⌋ : ℤ) = 1 := by norm_num [Int.floor_eq_iff]
  have h1 : setPeriodicWaveInterpolRatios 7 8192 2 = [0, 1/4] := by
    show (incrPhases 7 8192 2).map _ = _
    rw [h0]
    simp only [List.map_cons, List.map_nil]
    rw [hr0, hr1]
    norm_num [rustAbs]
  have h2 : newInterpolRatios 7 8192 2 = [0, 3/4] := by
    show (incrPhases 7 8192 2).map _ = _
    rw [h0]
    simp only [List.map_cons, List.map_nil]
    rw [hf0, hf1]
    norm_num
  refine ⟨h1, h2, ?_⟩
  rw [h1, h2]
  simp only [ne_eq, List.cons.injEq, List.cons_ne_nil, and_true, true_and]
  norm_num

/-- C4: the interpolation coefficient `generate_sine` uses is the stored
`SineState::interpol_ratio`; at the default 440 Hz / 44100 Hz it equals
45056/2205 ≈ 20.43, which is not a fractional part of any phase (the claim
requires the coefficient `phi − ⌊phi⌋ < 1` of the running phase). -/
theorem claim_C4_sine_interpol_ratio_bug :
    sineInterpolRatioAtNew 440 44100 = 45056 / 2205 ∧
    (∀ phi : ℚ, phi - (⌊phi⌋ : ℚ) < 1) ∧
    ¬ sineInterpolRatioAtNew 440 44100 < 1 := by
  have hfl : (⌊(440 / 44100 : ℚ)⌋ : ℤ) = 0 := by
    norm_num [Int.floor_eq_iff]
  have h1 : sineInterpolRatioAtNew 440 44100 = 45056 / 2205 := by
    show ((440 / 44100 : ℚ) - (⌊(440 / 44100 : ℚ)⌋ : ℚ))
        * (TABLE_LENGTH : ℚ) = _
    rw [hfl]
    norm_num [TABLE_LENGTH]
  refine ⟨h1, ?_, by rw [h1]; norm_num⟩
  intro phi
  rw [Int.self_sub_floor phi]
  exact Int.fract_lt_one phi

/-! ## Oscillator `process`: per-sample frequency resolution (C5)

`f32` arithmetic is idealised over `ℝ` (so `powf` is `Real.rpow`); these
definitions are `noncomputable` because real arithmetic is. -/

open Classical in
/-- The frequency computation of `OscillatorRenderer::process` (lines
374–388): when all consecutive detune values differ by less than `1e-6` the
single factor `2^(det_values[0]/1200)` is used for every sample, otherwise
each sample uses its own detune; `computed_freqs[i] = f_i * 2^(d_i/1200)`.
No clamping is applied to the product. -/
noncomputable def computedFreqs (freq_values det_values : List ℝ) : List ℝ :=
  if ∀ w ∈ det_values.zip det_values.tail, |w.1 - w.2| < 0.000001 then
    freq_values.map fun f => f * Real.rpow 2 (det_values.headD 0 / 1200)
  else
    (freq_values.zip det_values).map fun fd =>
      fd.1 * Real.rpow 2 (fd.2 / 1200)

theorem computedFreqs_const (freq_values : List ℝ) (c : ℝ) (n : Nat) :
    computedFreqs freq_values (List.replicate n c)
      = freq_values.map fun f => f * Real.rpow 2
          ((List.replicate n c).headD 0 / 1200) := by
  unfold computedFreqs
  rw [if_pos]
  intro w hw
  obtain ⟨h1, h2⟩ := List.mem_zip hw
  have e1 : w.1 = c := List.eq_of_mem_replicate h1
  have e2 : w.2 = c := by
    apply List.eq_of_mem_replicate (n := n - 1)
    cases n with
    | zero => simpa using h2
    | succ m => simpa using h2
  rw [e1, e2]
  norm_num

/-- C5 (amended): for every sample index `i` within both parameter blocks,
`process` synthesises with `computed_freqs[i] = frequency_i * 2^(d/1200)`,
where `d = detune_0` when all successive detune values differ by less than
`1e-6` (the fast path reuses `det_values[0]` for every sample) and
`d = detune_i` otherwise (the per-sample branch); no clamp to Nyquist is
applied to this product. -/
theorem claim_C5_computed_freq (freq_values det_values : List ℝ) (i : Nat)
    (hif : i < freq_values.length) (hid : i < det_values.length) :
    ((∀ w ∈ det_values.zip det_values.tail, |w.1 - w.2| < 0.000001) →
      (computedFreqs freq_values det_values).getD i 0
        = freq_values.getD i 0 * Real.rpow 2 (det_values.headD 0 / 1200)) ∧
    ((¬ ∀ w ∈ det_values.zip det_values.tail, |w.1 - w.2| < 0.000001) →
      (computedFreqs freq_values det_values).getD i 0
        = freq_values.getD i 0 * Real.rpow 2 (det_values.getD i 0 / 1200)) := by
  constructor
  · intro hc
    unfold computedFreqs
    rw [if_pos hc, getD_eq_getElem _ _ (by simpa using hif),
      List.getElem_map, getD_eq_getElem _ _ hif]
  · intro hc
    unfold computedFreqs
    rw [if_neg hc]
    have hz : i < (freq_values.zip det_values).length := by
      rw [List.length_zip]
      omega
    rw [getD_eq_getElem _ _ (by simpa using hz), List.getElem_map,
      List.getElem_zip, getD_eq_getElem _ _ hif, getD_eq_getElem _ _ hid]

/-- Witness for C5, exercising both branches: constant 440 Hz with zero
detune (fast path) gives 440 at sample 0; frequencies `[22050, 100]` with
detunes `[0, 1200]` (a 1200-cent jump, so the per-sample branch applies)
give `100 * 2^1 = 200` at sample 1. -/
theorem claim_C5_computed_freq_witness :
    (computedFreqs (List.replicate 128 (440 : ℝ))
        (List.replicate 128 0)).getD 0 0 = 440 ∧
    (computedFreqs [(22050 : ℝ), 100] [(0 : ℝ), 1200]).getD 1 0 = 200 := by
  constructor
  · have hc : ∀ w ∈ (List.replicate 128 (0 : ℝ)).zip
        (List.replicate 128 (0 : ℝ)).tail, |w.1 - w.2| < 0.000001 := by
      intro w hw
      obtain ⟨h1, h2⟩ := List.mem_zip hw
      have e1 : w.1 = 0 := List.eq_of_mem_replicate h1
      have h2' : w.2 ∈ List.replicate 127 (0 : ℝ) := h2
      have e2 : w.2 = 0 := List.eq_of_mem_replicate h2'
      rw [e1, e2]
      norm_num
    have h := (claim_C5_computed_freq (List.replicate 128 (440 : ℝ))
      (List.replicate 128 0) 0 (by norm_num) (by norm_num)).1 hc
    rw [h]
    have hh : (List.replicate 128 (0 : ℝ)).headD 0 = 0 := rfl
    have hg : (List.replicate 128 (440 : ℝ)).getD 0 0 = 440 := rfl
    rw [hh, hg]
    norm_num [Real.rpow_zero]
  · have hc : ¬ ∀ w ∈ ([(0 : ℝ), 1200].zip [(0 : ℝ), 1200].tail),
        |w.1 - w.2| < 0.000001 := by
      intro h
      have hmem : ((0 : ℝ), (1200 : ℝ)) ∈
          ([(0 : ℝ), 1200].zip [(0 : ℝ), 1200].tail) := by simp
      have hlt := h ((0 : ℝ), (1200 : ℝ)) hmem
      have habs : |((0 : ℝ), (1200 : ℝ)).1 - ((0 : ℝ), (1200 : ℝ)).2|
          = 1200 := by
        show |(0 : ℝ) - 1200| = 1200
        rw [abs_of_nonpos (by norm_num)]
        norm_num
      rw [habs] at hlt
      norm_num at hlt
    have h := (claim_C5_computed_freq [(22050 : ℝ), 100] [(0 : ℝ), 1200] 1
      (by norm_num) (by norm_num)).2 hc
    rw [h]
    have hg1 : ([(22050 : ℝ), 100]).getD 1 0 = 100 := rfl
    have hg2 : ([(0 : ℝ), 1200]).getD 1 0 = 1200 := rfl
    rw [hg1, hg2]
    have h2 : Real.rpow 2 ((1200 : ℝ) / 1200) = 2 := by
      rw [show ((1200 : ℝ) / 1200) = (1 : ℝ) by norm_num]
      exact Real.rpow_one 2
    rw [h2]
    norm_num

/-- C5, counterexample to the claim as stated: frequency pinned at the
Nyquist limit 22050 (sample rate 44100) with detune 1200 cents yields a
synthesis frequency of 44100, which violates the claimed clamp
`|f_i| ≤ sample_rate / 2 = 22050`; `process` performs no such clamp. -/
theorem claim_C5_counterexample :
    (computedFreqs (List.replicate 128 (22050 : ℝ))
        (List.replicate 128 1200)).getD 0 0 = 44100 ∧
    ¬ |(44100 : ℝ)| ≤ 44100 / 2 := by
  constructor
  · rw [computedFreqs_const, List.map_replicate]
    have hh : (List.replicate 128 (1200 : ℝ)).headD 0 = 1200 := rfl
    rw [hh]
    have hg : ∀ x : ℝ, (List.replicate 128 x).getD 0 0 = x := fun x => rfl
    rw [hg]
    have h2 : Real.rpow 2 ((1200 : ℝ) / 1200) = 2 := by
      rw [show ((1200 : ℝ) / 1200) = (1 : ℝ) by norm_num]
      exact Real.rpow_one 2
    rw [h2]
    norm_num
  · rw [abs_of_nonneg (by norm_num : (0:ℝ) ≤ 44100)]
    norm_num

/-! ## Analyser frequency path (`Analyser` of analysis.rs), over `ℝ` -/

/-- `generate_blackman` (lines 18–28): Blackman window, α = 0.16. -/
noncomputable def generate_blackman (size : Nat) : List ℝ :=
  let alpha : ℝ := 0.16
  let a0 := (1 - alpha) / 2
  let a1 := 1 / 2
  let a2 := alpha / 2
  (List.range size).map fun i =>
    a0 - a1 * Real.cos (2 * Real.pi * i / size)
      + a2 * Real.cos (4 * Real.pi * i / size)

/-- Modelled from the spec: the real FFT of the external `easyfft` crate
(`real_fft_using`, not part of this repository): `N` real inputs produce
`N/2 + 1` complex bins, bin `k` being `Σ_j x_j · e^(−2πi·jk/N)`. -/
noncomputable def rfftBin (x : List ℝ) (k : Nat) : ℝ × ℝ :=
  (∑ j ∈ Finset.range x.length,
      x.getD j 0 * Real.cos (2 * Real.pi * j * k / x.length),
   -∑ j ∈ Finset.range x.length,
      x.getD j 0 * Real.sin (2 * Real.pi * j * k / x.length))

/-- Modelled from the spec: the full bin list of the real FFT. -/
noncomputable def rfft (x : List ℝ) : List (ℝ × ℝ) :=
  (List.range (x.length / 2 + 1)).map (rfftBin x)

/-- `Complex::norm` of a bin. -/
noncomputable def cplxNorm (c : ℝ × ℝ) : ℝ := Real.sqrt (c.1 ^ 2 + c.2 ^ 2)

/-- `struct Analyser` (lines 99–108).  The `fft_output` scratch buffer is
not modelled as a field; its contents are recomputed where used. -/
structure Analyser where
  time : TimeAnalyser ℝ
  fft_input : List ℝ
  current_fft_size : Nat
  previous_block : List ℝ
  blackman : List ℝ

/-- `Analyser::new` (lines 112–129); `previous_block` gets one zero per
FFT bin (`fft_output.len()` = N/2 + 1 per the spec's FFT contract). -/
noncomputable def Analyser.new (initial_fft_size : Nat) : Analyser :=
  { time := TimeAnalyser.new ℝ
    fft_input := List.replicate initial_fft_size 0
    current_fft_size := initial_fft_size
    previous_block := List.replicate (initial_fft_size / 2 + 1) 0
    blackman := generate_blackman initial_fft_size }

/-- `Analyser::add_data`. -/
def Analyser.add_data (a : Analyser) (d : Block ℝ) : Analyser :=
  { a with time := a.time.add_data d }

/-- The reset branch of `calculate_float_frequency` (lines 164–176): on a
changed FFT size, zero the first `fft_size/2 + 1` smoothing entries and
regenerate the Blackman window. -/
noncomputable def Analyser.resetIfNeeded (a : Analyser) (fft_size : Nat) :
    Analyser :=
  if a.current_fft_size ≠ fft_size then
    { a with
      previous_block :=
        (a.previous_block.take (fft_size / 2 + 1)).map (fun _ => 0)
          ++ a.previous_block.drop (fft_size / 2 + 1)
      blackman := generate_blackman fft_size
      current_fft_size := fft_size }
  else a

/-- The windowed time-domain input of `calculate_float_frequency` (lines
178–189): the time data is written into `fft_input[..fft_size]` and then
multiplied in place by the Blackman window (entries beyond the window's
length are left unwindowed). -/
noncomputable def Analyser.windowedInput (a : Analyser) (fft_size : Nat) :
    List ℝ :=
  let input := a.time.get_float_time (a.fft_input.take fft_size) fft_size
  input.zipWith (· * ·) a.blackman ++ input.drop a.blackman.length

/-- The magnitudes `|bin[k]|` of the FFT of the windowed input (lines
191–192 plus `c.norm()` of line 199). -/
noncomputable def Analyser.magnitudes (a : Analyser) (fft_size : Nat) :
    List ℝ :=
  (rfft (a.windowedInput fft_size)).map cplxNorm

/-- `Analyser::calculate_float_frequency` (lines 163–201): optional reset,
window, FFT, then the smoothing update
`prev[k] = s * prev[k] + (1 - s) * |bin[k]|` over the first
`fft_size/2 + 1` smoothing entries (zip extent), `s` taken as given. -/
noncomputable def Analyser.calculate_float_frequency (a : Analyser)
    (fft_size : Nat) (smoothing_time_constant : ℝ) : Analyser :=
  let a := a.resetIfNeeded fft_size
  let prevSlice := a.previous_block.take (fft_size / 2 + 1)
  let mags := a.magnitudes fft_size
  let newSlice :=
    (prevSlice.zipWith
      (fun p m => smoothing_time_constant * p
        + (1 - smoothing_time_constant) * m) mags)
      ++ prevSlice.drop mags.length
  { a with
    fft_input := a.windowedInput fft_size ++ a.fft_input.drop fft_size
    previous_block := newSlice ++ a.previous_block.drop (fft_size / 2 + 1) }

/-- The dB conversion of `get_float_frequency` (lines 155–159):
`20·log10(p) − 20·log10(√N)`.  `f32` semantics at `p = 0`
(`log10(0) = −∞`, and `−∞ − norm = −∞`) are embedded by sending `0` to
`⊥ : EReal`. -/
noncomputable def dbConvert (N : Nat) (p : ℝ) : EReal :=
  if p = 0 then ⊥
  else ((20 * Real.logb 10 p - 20 * Real.logb 10 (Real.sqrt N) : ℝ) : EReal)

/-- `Analyser::get_float_frequency` (lines 151–160): zip the output buffer
with the first `current_fft_size/2 + 1` smoothing entries and write the dB
conversion; entries of `out` beyond the zip extent are untouched. -/
noncomputable def Analyser.get_float_frequency (a : Analyser)
    (out : List EReal) : List EReal :=
  let prevSlice := a.previous_block.take (a.current_fft_size / 2 + 1)
  let m := min out.length prevSlice.length
  (prevSlice.take m).map (dbConvert a.current_fft_size) ++ out.drop m

theorem getD_drop (l : List α) (d : α) (m j : Nat) (h : m + j < l.length) :
    (l.drop m).getD j d = l.getD (m + j) d := by
  rw [getD_eq_getElem _ _ (by simp only [List.length_drop]; omega),
    getD_eq_getElem _ _ h, List.getElem_drop]

/-- C6: `get_float_frequency` writes exactly the first
`min(out.len, N/2 + 1)` entries of `out` (N the current FFT size) with
`20·log10(prev[k]) − 20·log10(√N)` — which is `−∞` (here `⊥ : EReal`)
wherever `prev[k] = 0` — and leaves the remaining entries unchanged. -/
theorem claim_C6_get_float_frequency (a : Analyser) (out : List EReal)
    (hcap : a.current_fft_size / 2 + 1 ≤ a.previous_block.length) :
    (a.get_float_frequency out).length = out.length ∧
    (∀ k, k < min out.length (a.current_fft_size / 2 + 1) →
      (a.get_float_frequency out).getD k 0
        = dbConvert a.current_fft_size (a.previous_block.getD k 0)) ∧
    (∀ k, k < min out.length (a.current_fft_size / 2 + 1) →
      a.previous_block.getD k 0 = 0 →
      (a.get_float_frequency out).getD k 0 = ⊥) ∧
    (∀ k, min out.length (a.current_fft_size / 2 + 1) ≤ k →
      k < out.length →
      (a.get_float_frequency out).getD k 0 = out.getD k 0) := by
  set N := a.current_fft_size with hN
  set prevSlice := a.previous_block.take (N / 2 + 1) with hps
  have hpslen : prevSlice.length = N / 2 + 1 := by
    rw [hps, List.length_take]
    omega
  have hm : min out.length prevSlice.length
      = min out.length (N / 2 + 1) := by rw [hpslen]
  have hres : a.get_float_frequency out
      = (prevSlice.take (min out.length prevSlice.length)).map (dbConvert N)
        ++ out.drop (min out.length prevSlice.length) := rfl
  set m := min out.length (N / 2 + 1) with hmdef
  have htlen : (prevSlice.take m).length = m := by
    rw [List.length_take, hpslen]
    omega
  have hmaplen : ((prevSlice.take m).map (dbConvert N)).length = m := by
    rw [List.length_map, htlen]
  have hlen : (a.get_float_frequency out).length = out.length := by
    rw [hres, hm, List.length_append, hmaplen, List.length_drop]
    omega
  have hwrite : ∀ k, k < m →
      (a.get_float_frequency out).getD k 0
        = dbConvert N (a.previous_block.getD k 0) := by
    intro k hk
    rw [hres, hm,
      getD_append_left _ _ _ k (by rw [hmaplen]; exact hk),
      getD_eq_getElem _ _ (by rw [hmaplen]; exact hk), List.getElem_map]
    have hk2 : k < prevSlice.length := by omega
    have hk3 : k < a.previous_block.length := by omega
    congr 1
    rw [List.getElem_take, getD_eq_getElem _ (0 : ℝ) hk3]
    exact (List.getElem_take' a.previous_block hk3 (by omega)).symm
  refine ⟨hlen, hwrite, ?_, ?_⟩
  · intro k hk hzero
    rw [hwrite k hk, hzero]
    exact if_pos rfl
  · intro k hk1 hk2
    rw [hres, hm]
    have hsplit : k = ((prevSlice.take m).map (dbConvert N)).length
        + (k - m) := by
      rw [hmaplen]
      omega
    rw [hsplit, getD_append_right, getD_drop]
    · congr 1
      omega
    · omega

/-! ## Evaluation lemmas for silent input -/

theorem get_float_time_def [Zero α] (t : TimeAnalyser α) (out : List α)
    (fft_size : Nat) :
    t.get_float_time out fft_size
      = List.flatten (List.reverse
          ((chunksOf RENDER_QUANTUM_SIZE
            (out.take (min fft_size out.length))).reverse.mapIdx fun i b =>
              (t.orderedNewestFirst.getD i (silenceBlock α)).take b.length))
        ++ out.drop (min fft_size out.length) := rfl

theorem ordered_getD_zero (t : TimeAnalyser ℝ)
    (hord : ∀ b ∈ t.orderedNewestFirst,
      b = List.replicate RENDER_QUANTUM_SIZE (0 : ℝ)) (i : Nat) :
    t.orderedNewestFirst.getD i (silenceBlock ℝ)
      = List.replicate RENDER_QUANTUM_SIZE 0 := by
  by_cases h : i < t.orderedNewestFirst.length
  · rw [getD_eq_getElem _ _ h]
    exact hord _ (List.getElem_mem h)
  · rw [getD_eq_default_of_le _ _ _ (Nat.le_of_not_lt h)]
    rfl

theorem blocksReadout_zero (bs : List (Block ℝ))
    (hb : ∀ i, bs.getD i (silenceBlock ℝ)
      = List.replicate RENDER_QUANTUM_SIZE 0) :
    ∀ n, blocksReadout bs n
      = List.replicate (RENDER_QUANTUM_SIZE * n) 0 := by
  intro n
  induction n with
  | zero => rfl
  | succ m ih =>
      show (bs.getD m (silenceBlock ℝ)).take RENDER_QUANTUM_SIZE
          ++ blocksReadout bs m = _
      rw [hb m, ih, List.take_replicate, Nat.min_self,
        ← List.replicate_add]
      congr 1
      ring

/-- Reading `K*n` samples from a ring whose blocks are all silent produces
silence. -/
theorem get_float_time_silent_mul (t : TimeAnalyser ℝ) (n : Nat)
    (hord : ∀ b ∈ t.orderedNewestFirst,
      b = List.replicate RENDER_QUANTUM_SIZE (0 : ℝ)) :
    t.get_float_time (List.replicate (RENDER_QUANTUM_SIZE * n) 0)
        (RENDER_QUANTUM_SIZE * n)
      = List.replicate (RENDER_QUANTUM_SIZE * n) 0 := by
  rw [get_float_time_def]
  simp only [List.length_replicate, Nat.min_self, List.take_replicate,
    List.drop_replicate, Nat.sub_self, List.replicate_zero, List.append_nil]
  rw [code_chunks_eq_blocksReadout t.orderedNewestFirst n _
    (by simp only [List.length_replicate])]
  exact blocksReadout_zero _ (ordered_getD_zero t hord) n

theorem chunksOf_nil (n : Nat) : chunksOf n ([] : List α) = [] := rfl

/-- Reading 32 samples (one partial chunk) from a silent ring produces
silence. -/
theorem get_float_time_silent_32 (t : TimeAnalyser ℝ)
    (hord : ∀ b ∈ t.orderedNewestFirst,
      b = List.replicate RENDER_QUANTUM_SIZE (0 : ℝ)) :
    t.get_float_time (List.replicate 32 0) 32 = List.replicate 32 0 := by
  rw [get_float_time_def]
  simp only [List.length_replicate, Nat.min_self, List.take_replicate,
    List.drop_replicate, Nat.sub_self, List.replicate_zero, List.append_nil]
  rw [chunksOf_cons RENDER_QUANTUM_SIZE _ (by simp) (by decide),
    List.drop_replicate, show (32 - RENDER_QUANTUM_SIZE : Nat) = 0 by decide,
    List.replicate_zero, chunksOf_nil, List.take_replicate,
    show min RENDER_QUANTUM_SIZE 32 = 32 by decide,
    List.reverse_cons, List.reverse_nil, List.nil_append,
    List.mapIdx_cons, List.mapIdx_nil, ordered_getD_zero t hord,
    List.length_replicate, List.take_replicate,
    show min 32 RENDER_QUANTUM_SIZE = 32 by decide,
    List.reverse_cons, List.reverse_nil, List.nil_append,
    List.flatten_cons, List.flatten_nil, List.append_nil]

theorem zipWith_mul_replicate_zero :
    ∀ (n : Nat) (l : List ℝ),
      List.zipWith (· * ·) (List.replicate n (0 : ℝ)) l
        = List.replicate (min n l.length) 0 := by
  intro n
  induction n with
  | zero => intro l; simp
  | succ k ih =>
      intro l
      cases l with
      | nil => simp
      | cons x xs =>
          simp only [List.replicate_succ, List.zipWith_cons_cons, ih,
            List.length_cons, Nat.succ_min_succ]
          rw [zero_mul]

theorem windowedInput_silent (a : Analyser) (fft_size : Nat)
    (hin : a.time.get_float_time (a.fft_input.take fft_size) fft_size
      = List.replicate fft_size 0) :
    a.windowedInput fft_size = List.replicate fft_size 0 := by
  unfold Analyser.windowedInput
  rw [hin]
  show List.zipWith (· * ·) (List.replicate fft_size 0) a.blackman
      ++ (List.replicate fft_size (0 : ℝ)).drop a.blackman.length = _
  rw [zipWith_mul_replicate_zero, List.drop_replicate, ← List.replicate_add]
  congr 1
  omega

theorem rfftBin_replicate_zero (m k : Nat) :
    rfftBin (List.replicate m (0 : ℝ)) k = (0, 0) := by
  unfold rfftBin
  refine Prod.ext ?_ ?_ <;>
    simp [getD_replicate_self]

theorem magnitudes_silent (a : Analyser) (fft_size : Nat)
    (hwin : a.windowedInput fft_size = List.replicate fft_size 0) :
    a.magnitudes fft_size = List.replicate (fft_size / 2 + 1) 0 := by
  unfold Analyser.magnitudes
  rw [hwin]
  have hbins : rfft (List.replicate fft_size (0 : ℝ))
      = List.replicate (fft_size / 2 + 1) ((0 : ℝ), (0 : ℝ)) := by
    unfold rfft
    rw [List.map_congr_left
      (fun k _ => rfftBin_replicate_zero fft_size k)]
    rw [List.map_const', List.length_range, List.length_replicate]
  rw [hbins, List.map_replicate]
  congr 1
  unfold cplxNorm
  norm_num

theorem resetIfNeeded_eq_self (a : Analyser) (fft_size : Nat)
    (h : a.current_fft_size = fft_size) : a.resetIfNeeded fft_size = a := by
  unfold Analyser.resetIfNeeded
  rw [if_neg]
  omega

theorem calculate_previous_block (a : Analyser) (fft_size : Nat) (s : ℝ)
    (hsz : a.current_fft_size = fft_size) :
    (a.calculate_float_frequency fft_size s).previous_block
      = ((a.previous_block.take (fft_size / 2 + 1)).zipWith
            (fun p m => s * p + (1 - s) * m) (a.magnitudes fft_size)
          ++ (a.previous_block.take (fft_size / 2 + 1)).drop
              (a.magnitudes fft_size).length)
        ++ a.previous_block.drop (fft_size / 2 + 1) := by
  unfold Analyser.calculate_float_frequency
  rw [resetIfNeeded_eq_self a fft_size hsz]

theorem calculate_current_fft_size (a : Analyser) (fft_size : Nat) (s : ℝ)
    (hsz : a.current_fft_size = fft_size) :
    (a.calculate_float_frequency fft_size s).current_fft_size = fft_size := by
  unfold Analyser.calculate_float_frequency
  rw [resetIfNeeded_eq_self a fft_size hsz]
  exact hsz

theorem get_float_frequency_def (a : Analyser) (out : List EReal) :
    a.get_float_frequency out
      = List.map (dbConvert a.current_fft_size)
          ((a.previous_block.take (a.current_fft_size / 2 + 1)).take
            (min out.length
              (a.previous_block.take (a.current_fft_size / 2 + 1)).length))
        ++ out.drop (min out.length
            (a.previous_block.take (a.current_fft_size / 2 + 1)).length) :=
  rfl

/-- The analyser of the C6 scenario after its silent block: fresh at FFT
size `4K = 512`, one all-zero block added. -/
noncomputable def silentAnalyser512 : Analyser :=
  (Analyser.new 512).add_data (List.replicate 128 0)

theorem silentAnalyser512_ord :
    ∀ b ∈ silentAnalyser512.time.orderedNewestFirst,
      b = List.replicate RENDER_QUANTUM_SIZE (0 : ℝ) := by
  have h : silentAnalyser512.time.orderedNewestFirst
      = [List.replicate 128 (0 : ℝ)] := rfl
  rw [h]
  intro b hb
  simp only [List.mem_singleton] at hb
  exact hb

theorem silentAnalyser512_prev :
    (silentAnalyser512.calculate_float_frequency 512 (0.8 : ℝ)).previous_block
      = List.replicate 257 (0 : ℝ) := by
  have hfft : silentAnalyser512.fft_input = List.replicate 512 0 := rfl
  have hprev : silentAnalyser512.previous_block
      = List.replicate 257 (0 : ℝ) := rfl
  have hin : silentAnalyser512.time.get_float_time
      (silentAnalyser512.fft_input.take 512) 512 = List.replicate 512 0 := by
    rw [hfft, List.take_replicate, Nat.min_self]
    have h4 : (512 : Nat) = RENDER_QUANTUM_SIZE * 4 := by decide
    rw [h4]
    exact get_float_time_silent_mul silentAnalyser512.time 4
      silentAnalyser512_ord
  have hwin := windowedInput_silent silentAnalyser512 512 hin
  have hmags := magnitudes_silent silentAnalyser512 512 hwin
  rw [calculate_previous_block silentAnalyser512 512 (0.8 : ℝ) rfl, hmags,
    hprev]
  norm_num

set_option maxRecDepth 8000 in
/-- Witness for C6 at the claim's concrete scenario: fresh analyser of FFT
size 4K = 512, one silent block, `calculate_float_frequency(512, 0.8)`; the
first 2K+1 = 257 entries of a buffer filled with −1 become `⊥` (−∞) and the
remaining 255 keep −1. -/
theorem claim_C6_get_float_frequency_witness :
    Analyser.get_float_frequency
        (silentAnalyser512.calculate_float_frequency 512 (0.8 : ℝ))
        (List.replicate 512 (-1 : EReal))
      = List.replicate 257 (⊥ : EReal) ++ List.replicate 255 (-1 : EReal) := by
  set a2 := silentAnalyser512.calculate_float_frequency 512 (0.8 : ℝ)
    with ha2
  have hprev : a2.previous_block = List.replicate 257 (0 : ℝ) :=
    silentAnalyser512_prev
  have hcur : a2.current_fft_size = 512 :=
    calculate_current_fft_size silentAnalyser512 512 (0.8 : ℝ) rfl
  have hthm := claim_C6_get_float_frequency a2
    (List.replicate 512 (-1 : EReal))
    (by rw [hcur, hprev, List.length_replicate])
  apply List.ext_getElem
  · rw [hthm.1]
    simp
  · intro i h1 h2
    rw [hthm.1, List.length_replicate] at h1
    by_cases hi : i < 257
    · have hb := hthm.2.2.1 i
        (by rw [hcur, List.length_replicate]; omega)
        (by rw [hprev]; exact getD_replicate_self 257 i 0)
      have hL : (Analyser.get_float_frequency a2
          (List.replicate 512 (-1 : EReal)))[i] = ⊥ := by
        rw [← getD_eq_getElem _ (0 : EReal) (by rw [hthm.1]; simpa using h1)]
        exact hb
      rw [hL, List.getElem_append_left (by simpa using hi)]
      rw [List.getElem_replicate]
    · have ht := hthm.2.2.2 i
        (by rw [hcur, List.length_replicate]; omega)
        (by rw [List.length_replicate]; omega)
      have hL : (Analyser.get_float_frequency a2
          (List.replicate 512 (-1 : EReal)))[i] = -1 := by
        rw [← getD_eq_getElem _ (0 : EReal) (by rw [hthm.1]; simpa using h1)]
        rw [ht, getD_eq_getElem _ (0 : EReal)
          (by rw [List.length_replicate]; omega)]
        rw [List.getElem_replicate]
      rw [hL, List.getElem_append_right (by simpa using Nat.le_of_not_lt hi)]
      rw [List.getElem_replicate]

/-! ## C7: the smoothing update -/

/-- The claim's per-bin smoothing rule: `s` clamped to `[0, 1]` before use
(`prev' = clamp(s)·prev + (1 − clamp(s))·|bin|`). -/
noncomputable def specSmoothedBin (s p m : ℝ) : ℝ :=
  min (max s 0) 1 * p + (1 - min (max s 0) 1) * m

/-- A concrete analyser state for C7: FFT size 32, one silent block in the
ring, smoothing history all ones. -/
noncomputable def analyser32 : Analyser :=
  { time := (TimeAnalyser.new ℝ).add_data (List.replicate 128 0)
    fft_input := List.replicate 32 0
    current_fft_size := 32
    previous_block := List.replicate 17 1
    blackman := generate_blackman 32 }

theorem analyser32_magnitudes :
    analyser32.magnitudes 32 = List.replicate 17 0 := by
  have hord : ∀ b ∈ analyser32.time.orderedNewestFirst,
      b = List.replicate RENDER_QUANTUM_SIZE (0 : ℝ) := by
    have h : analyser32.time.orderedNewestFirst
        = [List.replicate 128 (0 : ℝ)] := rfl
    rw [h]
    intro b hb
    simp only [List.mem_singleton] at hb
    exact hb
  have hin : analyser32.time.get_float_time
      (analyser32.fft_input.take 32) 32 = List.replicate 32 0 := by
    rw [show analyser32.fft_input = List.replicate 32 (0 : ℝ) from rfl,
      List.take_replicate, Nat.min_self]
    exact get_float_time_silent_32 analyser32.time hord
  exact magnitudes_silent analyser32 32 (windowedInput_silent analyser32 32 hin)

/-- C7, counterexample to the claim as stated: at smoothing constant `s = 2`
(outside [0, 1]), on a state with smoothing history 1 and silent input
(all `|bin[k]| = 0`), the code updates every bin to `2·1 + (1−2)·0 = 2`,
whereas the claim's clamped rule gives `1·1 + 0·0 = 1`. -/
theorem claim_C7_counterexample :
    (analyser32.calculate_float_frequency 32 2).previous_block
      = List.replicate 17 (2 : ℝ) ∧
    specSmoothedBin 2 1 0 = 1 ∧
    ((2 : ℝ) ≠ 1) := by
  refine ⟨?_, ?_, by norm_num⟩
  · rw [calculate_previous_block analyser32 32 2 rfl, analyser32_magnitudes,
      show analyser32.previous_block = List.replicate 17 (1 : ℝ) from rfl]
    norm_num
  · unfold specSmoothedBin
    norm_num

/-- C7 (amended): `calculate_float_frequency(fft_size, s)` (at unchanged FFT
size) updates the first `fft_size/2 + 1` smoothing entries bin-wise by
`prev[k] = s·prev[k] + (1−s)·|bin[k]|` with `s` used as given; for `s` in
the API's valid range `[0, 1]` — where clamping is the identity — this
coincides with the claim's clamped rule, but no clamping is performed. -/
theorem claim_C7_smoothing (a : Analyser) (fft_size : Nat) (s : ℝ)
    (hsz : a.current_fft_size = fft_size) (hs0 : 0 ≤ s) (hs1 : s ≤ 1) :
    (a.calculate_float_frequency fft_size s).previous_block
      = ((a.previous_block.take (fft_size / 2 + 1)).zipWith
            (fun p m => specSmoothedBin s p m) (a.magnitudes fft_size)
          ++ (a.previous_block.take (fft_size / 2 + 1)).drop
              (a.magnitudes fft_size).length)
        ++ a.previous_block.drop (fft_size / 2 + 1) := by
  have hclamp : min (max s 0) 1 = s := by
    rw [max_eq_left hs0, min_eq_left hs1]
  rw [calculate_previous_block a fft_size s hsz]
  simp only [specSmoothedBin, hclamp]

/-- Witness for C7 at `s = 1/2` on the silent 32-sample state: every bin
becomes `1/2·1 + 1/2·0 = 1/2`. -/
theorem claim_C7_smoothing_witness :
    (analyser32.calculate_float_frequency 32 (1/2 : ℝ)).previous_block
      = List.replicate 17 (1/2 : ℝ) := by
  rw [claim_C7_smoothing analyser32 32 (1/2 : ℝ) rfl (by norm_num)
    (by norm_num), analyser32_magnitudes,
    show analyser32.previous_block = List.replicate 17 (1 : ℝ) from rfl]
  norm_num [specSmoothedBin]

end WebAudio
